import Mathlib

set_option maxHeartbeats 1000000

/-!
Shallow embedding of the Stara-Maze-Generator core (grid model, BFS search
strategy, maze aggregate).  The repository ships only the tests, the CLI and
a `Protocol` declaration for these components; the component implementations
(`vmaze.py`, `pathfinder/base.py`, `pathfinder/bfs.py`) are absent, so the
definitions below are modelled from the specification's component design
(spec §3, §4.1–§4.5), with Python exceptions rendered as `Option`/`Except`
failure values.
-/

/-- A grid position `(row, col)` (spec §3, "Position"). -/
abbrev Pos := Nat × Nat

/-- Modelled from the spec: the closed enumeration of search-strategy
variants (`pathfinder/__init__.py` has the enum; only BFS exists). -/
inductive Pathfinder where
  | BFS
deriving DecidableEq, Repr

/-- Modelled from the spec: the Maze Aggregate's fields (spec §3); the class
`VMaze` itself (`vmaze.py`) is missing from `src/`.  `maze_map` stores the
passability grid (1 = passable, 0 = wall), `path` the cached last search
result. -/
structure VMaze where
  rows : Nat
  cols : Nat
  seed : Nat
  start : Pos
  goal : Pos
  min_valid_paths : Nat
  pathfinding_algorithm : Pathfinder
  maze_map : List (List Nat)
  path : Option (List Pos)
deriving DecidableEq, Repr

/-- Grid lookup; `none` models the `IndexError` a Python access outside the
stored array raises. -/
def cellVal (m : VMaze) (r c : Nat) : Option Nat :=
  match m.maze_map[r]? with
  | none => none
  | some row => row[c]?

/-- The grid invariant of the data model (spec §3): the stored dimensions
describe the actual array ("dimensions are fixed at construction"). -/
def WF (m : VMaze) : Prop :=
  m.maze_map.length = m.rows ∧ ∀ row ∈ m.maze_map, row.length = m.cols

instance (m : VMaze) : Decidable (WF m) :=
  inferInstanceAs (Decidable (m.maze_map.length = m.rows ∧
    ∀ row ∈ m.maze_map, row.length = m.cols))

/-- One entry of the neighbour tuple: when the direction stays in bounds the
grid is indexed (outer `none` = `IndexError`), otherwise the entry is the
inner `none` (spec §4.1). -/
def neighEntry (m : VMaze) (inb : Bool) (nr nc : Nat) :
    Option (Option (Nat × Nat × Nat)) :=
  if inb then
    match cellVal m nr nc with
    | none => none
    | some v => some (some (nr, nc, v))
  else some none

/-- Modelled from the spec: `VMaze.get_cell_neighbours` (spec §4.1), the
4-tuple up/down/left/right of optional `(row, col, passability)` entries;
each in-bounds direction indexes the grid, and a failing index aborts the
whole call (`IndexError`), matching "indexing an invalid cell fails". -/
def VMaze.get_cell_neighbours (m : VMaze) (r c : Nat) :
    Option (Option (Nat × Nat × Nat) × Option (Nat × Nat × Nat) ×
            Option (Nat × Nat × Nat) × Option (Nat × Nat × Nat)) :=
  match neighEntry m (decide (0 < r)) (r - 1) c with
  | none => none
  | some up =>
    match neighEntry m (decide (r + 1 < m.rows)) (r + 1) c with
    | none => none
    | some down =>
      match neighEntry m (decide (0 < c)) r (c - 1) with
      | none => none
      | some left =>
        match neighEntry m (decide (c + 1 < m.cols)) r (c + 1) with
        | none => none
        | some right => some (up, down, left, right)

/-- 4-directional adjacency of two positions. -/
def adjacent (a b : Pos) : Prop :=
  (a.1 = b.1 ∧ (a.2 + 1 = b.2 ∨ b.2 + 1 = a.2)) ∨
  (a.2 = b.2 ∧ (a.1 + 1 = b.1 ∨ b.1 + 1 = a.1))

instance (a b : Pos) : Decidable (adjacent a b) :=
  inferInstanceAs (Decidable ((a.1 = b.1 ∧ (a.2 + 1 = b.2 ∨ b.2 + 1 = a.2)) ∨
    (a.2 = b.2 ∧ (a.1 + 1 = b.1 ∨ b.1 + 1 = a.1))))

/-- The cell at `p` holds a passage. -/
def passableCell (m : VMaze) (p : Pos) : Prop :=
  cellVal m p.1 p.2 = some 1

instance (m : VMaze) (p : Pos) : Decidable (passableCell m p) :=
  inferInstanceAs (Decidable (cellVal m p.1 p.2 = some 1))

/-- A single traversable edge of the grid graph: 4-adjacent and both ends
passable (spec §4.3). -/
def edgeStep (m : VMaze) (a b : Pos) : Prop :=
  adjacent a b ∧ passableCell m a ∧ passableCell m b

/-- `p` is a path from `s` to `g` through passable cells. -/
def ValidPath (m : VMaze) (s g : Pos) (p : List Pos) : Prop :=
  p.head? = some s ∧ p.getLast? = some g ∧ List.Chain' (edgeStep m) p

/-- `g` can be reached from `s` through passable cells. -/
def Reachable (m : VMaze) (s g : Pos) : Prop :=
  ∃ p, ValidPath m s g p

namespace BFS

/-- First predecessor-map entry for `c`, scanning from the head. -/
def lookupPred (pred : List (Pos × Pos)) (c : Pos) : Option Pos :=
  match pred with
  | [] => none
  | kv :: rest => if kv.1 = c then some kv.2 else lookupPred rest c

/-- Follow predecessor links from `cur` back to `start`, accumulating the
path in order; `none` models a broken chain (a `KeyError`) or running out
of fuel (a predecessor cycle). -/
def backtrackAux (pred : List (Pos × Pos)) (start : Pos) :
    Nat → Pos → List Pos → Option (List Pos)
  | 0, _, _ => none
  | fuel + 1, cur, acc =>
    if cur = start then some (start :: acc)
    else
      match lookupPred pred cur with
      | none => none
      | some q => backtrackAux pred start fuel q (cur :: acc)

/-- The four neighbour entries flattened in the fixed expansion order
up, down, left, right (spec §4.3). -/
def entryList (t : Option (Nat × Nat × Nat) × Option (Nat × Nat × Nat) ×
    Option (Nat × Nat × Nat) × Option (Nat × Nat × Nat)) :
    List (Nat × Nat × Nat) :=
  [t.1, t.2.1, t.2.2.1, t.2.2.2].filterMap id

/-- Cells reachable over one edge from `cur`: present neighbour entries with
a passable flag, provided `cur` itself is passable (an edge of the grid
graph needs both endpoints passable, spec §4.3). -/
def candidateCells (m : VMaze) (cur : Pos)
    (t : Option (Nat × Nat × Nat) × Option (Nat × Nat × Nat) ×
         Option (Nat × Nat × Nat) × Option (Nat × Nat × Nat)) : List Pos :=
  if cellVal m cur.1 cur.2 = some 1 then
    ((entryList t).filter (fun e => decide (e.2.2 = 1))).map (fun e => (e.1, e.2.1))
  else []

/-- The cells enqueued (and simultaneously marked visited) when `cur` is
expanded: its edge-reachable neighbours not yet visited. -/
def stepNew (m : VMaze) (cur : Pos)
    (t : Option (Nat × Nat × Nat) × Option (Nat × Nat × Nat) ×
         Option (Nat × Nat × Nat) × Option (Nat × Nat × Nat))
    (visited : List Pos) : List Pos :=
  (candidateCells m cur t).filter (fun q => decide (¬ q ∈ visited))

/-- Modelled from the spec: the BFS main loop (spec §4.3, `bfs.py` missing
from `src/`).  FIFO queue, cells marked visited when enqueued, predecessor
links recorded per visited cell, goal test on dequeue, reconstruction by
following predecessors from the goal and reversing.  The outer `none`
models a raised exception (grid `IndexError` during neighbour expansion)
or a non-terminating loop; `some none` is the normal "no path" return. -/
def bfsLoop (m : VMaze) (start goal : Pos) :
    Nat → List Pos → List Pos → List (Pos × Pos) → Option (Option (List Pos))
  | 0, _, _, _ => none
  | _ + 1, [], _, _ => some none
  | fuel + 1, cur :: rest, visited, pred =>
    if cur = goal then
      match backtrackAux pred start (pred.length + 1) goal [] with
      | none => none
      | some p => some (some p)
    else
      match m.get_cell_neighbours cur.1 cur.2 with
      | none => none
      | some t =>
        bfsLoop m start goal fuel (rest ++ stepNew m cur t visited)
          (visited ++ stepNew m cur t visited)
          (pred ++ (stepNew m cur t visited).map (fun n => (n, cur)))

/-- The BFS search proper: queue and visited set seeded with `start`. -/
def search (m : VMaze) (s g : Pos) : Option (Option (List Pos)) :=
  bfsLoop m s g (m.rows * m.cols + 2) [s] [s] []

/-- Modelled from the spec: `BFS.find_path` (spec §4.2–§4.3, `bfs.py`
missing from `src/`).  On success the result is also written into the
aggregate's `path` field; on a normal "no path" outcome the cached path is
unset so that no stale path is presented as current (spec §8). -/
def find_path (m : VMaze) (s g : Pos) : Option (Option (List Pos) × VMaze) :=
  match search m s g with
  | none => none
  | some none => some (none, { m with path := none })
  | some (some p) => some (some p, { m with path := some p })

end BFS

/-- Modelled from the spec: the reference/base Search Strategy variant
(spec §4.2, `pathfinder/base.py` missing from `src/`), bound to one maze
aggregate. -/
structure PathfinderBase where
  maze : VMaze

/-- Modelled from the spec: the base variant has no implementation and
signals "not implemented" when invoked directly (spec §4.2, §7). -/
def PathfinderBase.find_path (_pf : PathfinderBase) (_s _g : Pos) :
    Except String (Option (List Pos)) :=
  Except.error "NotImplementedError"

/-- Modelled from the spec: the `VMaze` constructor (spec §4.5, `vmaze.py`
missing from `src/`): validates `size >= 4` with a descriptive error,
accepts start/goal without a bounds check, stores `rows = cols = size`,
an all-wall grid, the default BFS strategy and no cached path. -/
def VMaze.construct (seed size : Nat) (s g : Pos) (mvp : Nat) :
    Except String VMaze :=
  if size < 4 then Except.error "size must be at least 4"
  else Except.ok
    { rows := size, cols := size, seed := seed, start := s, goal := g,
      min_valid_paths := mvp, pathfinding_algorithm := Pathfinder.BFS,
      maze_map := List.replicate size (List.replicate size 0), path := none }

/-- The aggregate produced by a successful `VMaze.construct`. -/
def freshMaze (seed size : Nat) (s g : Pos) (mvp : Nat) : VMaze :=
  { rows := size, cols := size, seed := seed, start := s, goal := g,
    min_valid_paths := mvp, pathfinding_algorithm := Pathfinder.BFS,
    maze_map := List.replicate size (List.replicate size 0), path := none }

/-- Modelled from the spec: the string summary exposing rows, cols, start
and goal (spec §4.5); coordinate pairs render the way the stored arrays
print, as bracketed space-separated pairs. -/
def VMaze.reprStr (m : VMaze) : String :=
  "VMaze(rows=" ++ toString m.rows ++ ", cols=" ++ toString m.cols ++
    ", start=[" ++ toString m.start.1 ++ " " ++ toString m.start.2 ++
    "], goal=[" ++ toString m.goal.1 ++ " " ++ toString m.goal.2 ++ "])"

/-- Grid write; `none` models the `IndexError` of an out-of-bounds store. -/
def setCell (m : VMaze) (r c v : Nat) : Option VMaze :=
  match m.maze_map[r]? with
  | none => none
  | some row =>
    if c < row.length then
      some { m with maze_map := m.maze_map.set r (row.set c v) }
    else none

/-- Modelled from the spec: the deterministic pseudorandom step standing in
for the seeded generator of spec §4.4 step 2 (the generator's use lives in
the missing `vmaze.py`); a linear congruential step. -/
def nextRand (s : Nat) : Nat :=
  (s * 1103515245 + 12345) % 2147483648

/-- The in-bounds 4-neighbours of a position, used as generation frontier
candidates. -/
def gridNeighbours (m : VMaze) (p : Pos) : List Pos :=
  (if 0 < p.1 then [(p.1 - 1, p.2)] else []) ++
  (if p.1 + 1 < m.rows then [(p.1 + 1, p.2)] else []) ++
  (if 0 < p.2 then [(p.1, p.2 - 1)] else []) ++
  (if p.2 + 1 < m.cols then [(p.1, p.2 + 1)] else [])

/-- Modelled from the spec: Prim-style frontier carving (spec §4.4 steps
3–4, `vmaze.py` missing from `src/`): repeatedly pick a frontier cell with
the seeded generator, open it, and add its unvisited wall neighbours. -/
def carve : Nat → Nat → VMaze → List Pos → VMaze
  | 0, _, m, _ => m
  | _ + 1, _, m, [] => m
  | fuel + 1, rng, m, frontier =>
    let i := rng % frontier.length
    let cell := frontier.getD i (0, 0)
    let m' := match setCell m cell.1 cell.2 1 with
      | some mm => mm
      | none => m
    let fresh := (gridNeighbours m' cell).filter
      (fun q => decide (cellVal m' q.1 q.2 = some 0) && decide (¬ q ∈ frontier))
    carve fuel (nextRand rng) m' (frontier.eraseIdx i ++ fresh)

/-- Open the whole row `r` (additional carving used to restore
connectivity, spec §4.4 step 6). -/
def setRowAll (m : VMaze) (r : Nat) : VMaze :=
  match m.maze_map[r]? with
  | none => m
  | some row => { m with maze_map := m.maze_map.set r (List.replicate row.length 1) }

/-- Open the whole column `c` in every row. -/
def setColAll (grid : List (List Nat)) (c : Nat) : List (List Nat) :=
  grid.map (fun row => row.set c 1)

/-- Carve a guaranteed start-to-goal corridor: the full row of `start` and
the full column of `goal`. -/
def openCorridor (m : VMaze) : VMaze :=
  let m1 := setRowAll m m.start.1
  { m1 with maze_map := setColAll m1.maze_map m.goal.2 }

/-- The aggregate with its grid reset to all walls (spec §4.4 step 1). -/
def resetGrid (m : VMaze) : VMaze :=
  { m with maze_map := List.replicate m.rows (List.replicate m.cols 0),
           path := none }

/-- The fully carved grid obtained from `m2` with `m`'s seed and budget. -/
def carvedFrom (m m2 : VMaze) : VMaze :=
  carve (m.rows * m.cols) m.seed m2 (gridNeighbours m2 m.start)

/-- Modelled from the spec: `VMaze.generate_maze` (spec §4.4, `vmaze.py`
missing from `src/`): reset the grid to walls, mark start and goal passable
(each store raises `IndexError`, i.e. `none`, on an out-of-bounds
coordinate), carve passages with the seeded generator, then verify
start-goal connectivity with the BFS strategy, carving an additional
corridor when the check fails. -/
def VMaze.generate_maze (m : VMaze) : Option VMaze :=
  match setCell (resetGrid m) m.start.1 m.start.2 1 with
  | none => none
  | some m1 =>
    match setCell m1 m.goal.1 m.goal.2 1 with
    | none => none
    | some m2 =>
      match BFS.search (carvedFrom m m2) m.start m.goal with
      | some (some _) => some (carvedFrom m m2)
      | _ => some (openCorridor (carvedFrom m m2))

/-- The staged 4×4 maze of `tests/test_bfs.py` and `tests/test_base.py`. -/
def testMazeBfs : VMaze :=
  { rows := 4, cols := 4, seed := 42, start := (0, 0), goal := (3, 3),
    min_valid_paths := 1, pathfinding_algorithm := Pathfinder.BFS,
    maze_map := [[1, 1, 1, 1], [0, 0, 1, 1], [1, 1, 1, 0], [1, 0, 1, 1]],
    path := none }

/-- The staged 4×4 maze of `tests/test_vmaze.py`. -/
def testMazeVmaze : VMaze :=
  { rows := 4, cols := 4, seed := 42, start := (0, 0), goal := (3, 3),
    min_valid_paths := 3, pathfinding_algorithm := Pathfinder.BFS,
    maze_map := [[1, 1, 0, 0], [0, 1, 0, 0], [0, 1, 1, 1], [0, 0, 0, 1]],
    path := none }

/-- The all-wall aggregate produced by `VMaze.construct 42 4 (0,0) (3,3) 3`. -/
def testMazeFresh : VMaze :=
  { rows := 4, cols := 4, seed := 42, start := (0, 0), goal := (3, 3),
    min_valid_paths := 3, pathfinding_algorithm := Pathfinder.BFS,
    maze_map := List.replicate 4 (List.replicate 4 0), path := none }

/-- A fully open (unobstructed) n×n maze. -/
def openMaze (n : Nat) : VMaze :=
  { rows := n, cols := n, seed := 0, start := (0, 0), goal := (n - 1, n - 1),
    min_valid_paths := 1, pathfinding_algorithm := Pathfinder.BFS,
    maze_map := List.replicate n (List.replicate n 1), path := none }

instance (m : VMaze) : DecidableRel (edgeStep m) := fun a b =>
  inferInstanceAs (Decidable (adjacent a b ∧ passableCell m a ∧ passableCell m b))

instance (m : VMaze) (s g : Pos) (p : List Pos) : Decidable (ValidPath m s g p) :=
  inferInstanceAs (Decidable (p.head? = some s ∧ p.getLast? = some g ∧
    List.Chain' (edgeStep m) p))

namespace BFS

/-- The predecessor-link chain from `start` to a cell, listing the cells of
the induced BFS-tree path in order. -/
inductive PredChain (pred : List (Pos × Pos)) (start : Pos) : Pos → List Pos → Prop where
  | base : PredChain pred start start [start]
  | step : ∀ {c q p}, c ≠ start → lookupPred pred c = some q →
      PredChain pred start q p → PredChain pred start c (p ++ [c])

/-- The per-visited-cell certificate carried by the BFS invariants: a
recorded predecessor chain that is a duplicate-free valid path from `start`
lying inside the visited set. -/
def ChainPack (m : VMaze) (start : Pos) (visited : List Pos)
    (pred : List (Pos × Pos)) (c : Pos) (p : List Pos) : Prop :=
  PredChain pred start c p ∧ ValidPath m start c p ∧ p.Nodup ∧ ∀ x ∈ p, x ∈ visited

/-- Soundness invariant of the BFS loop state. -/
structure SInv (m : VMaze) (start : Pos) (queue visited : List Pos)
    (pred : List (Pos × Pos)) : Prop where
  hsub : ∀ c ∈ queue, c ∈ visited
  hstart : start ∈ visited
  hnodup : visited.Nodup
  hlen : visited.length = pred.length + 1
  hkeys : ∀ kv ∈ pred, kv.1 ∈ visited
  hcells : ∀ c ∈ visited, ∃ p, ChainPack m start visited pred c p

/-- Optimality/termination invariant of the BFS loop state; `ds` lists, in
queue order, the cell count of each queued cell's recorded chain, which is
minimal among all valid paths reaching that cell. -/
structure BInv (m : VMaze) (start goal : Pos) (queue visited : List Pos)
    (pred : List (Pos × Pos)) (ds : List Nat) : Prop where
  base : SInv m start queue visited pred
  hin : ∀ c ∈ visited, c.1 < m.rows ∧ c.2 < m.cols
  hclosed : ∀ c ∈ visited, c ∉ queue → ∀ y, edgeStep m c y → y ∈ visited
  hgoal : goal ∈ visited → goal ∈ queue
  hds : List.Forall₂ (fun c d => ∃ p, ChainPack m start visited pred c p ∧
    p.length = d ∧ ∀ q, ValidPath m start c q → p.length ≤ q.length) queue ds
  hsort : List.Pairwise (· ≤ ·) ds
  hspread : ∀ a ∈ ds, ∀ b ∈ ds, a ≤ b + 1

end BFS

/-- Manhattan distance between two positions. -/
def manhattanN (a b : Pos) : Nat :=
  ((a.1 - b.1) + (b.1 - a.1)) + ((a.2 - b.2) + (b.2 - a.2))

/-- A monotone staircase walk across the open n×n grid: along row 0, then
down column `n-1`. -/
def stairPath (n : Nat) : List Pos :=
  ((List.range n).map fun j => ((0 : Nat), j)) ++
    ((List.range (n - 1)).map fun i => (i + 1, n - 1))

/-! ## Basic grid lemmas -/

/-- Dimensions of a raw grid. -/
def GridDims (grid : List (List Nat)) (R C : Nat) : Prop :=
  grid.length = R ∧ ∀ row ∈ grid, row.length = C

/-- Executable edge-chain check, used to certify concrete paths. -/
def chainOk (m : VMaze) : List Pos → Bool
  | [] => true
  | [_] => true
  | a :: b :: tl => decide (edgeStep m a b) && chainOk m (b :: tl)

theorem wf_iff_gridDims (m : VMaze) : WF m ↔ GridDims m.maze_map m.rows m.cols :=
  Iff.rfl

theorem gridDims_replicate (R C v : Nat) :
    GridDims (List.replicate R (List.replicate C v)) R C := by
  constructor
  · simp
  · intro row hrow
    rw [List.eq_of_mem_replicate hrow]
    simp

theorem cellVal_some_of_lt {m : VMaze} (hwf : WF m) {a b : Nat}
    (ha : a < m.rows) (hb : b < m.cols) : ∃ v, cellVal m a b = some v := by
  obtain ⟨hlen, hrows⟩ := hwf
  unfold cellVal
  have ha' : a < m.maze_map.length := by omega
  have hrow : m.maze_map[a]? = some m.maze_map[a] := List.getElem?_eq_getElem ha'
  rw [hrow]
  have hmem : m.maze_map[a] ∈ m.maze_map := List.getElem_mem ha'
  have hblen : b < (m.maze_map[a]).length := by rw [hrows _ hmem]; exact hb
  exact ⟨_, List.getElem?_eq_getElem hblen⟩

theorem cellVal_lt_of_some {m : VMaze} (hwf : WF m) {a b v : Nat}
    (h : cellVal m a b = some v) : a < m.rows ∧ b < m.cols := by
  obtain ⟨hlen, hrows⟩ := hwf
  unfold cellVal at h
  cases hrow : m.maze_map[a]? with
  | none => rw [hrow] at h; exact absurd h (by simp)
  | some row =>
    rw [hrow] at h
    have ha : a < m.maze_map.length := (List.getElem?_eq_some.mp hrow).1
    have hmem : row ∈ m.maze_map := by
      obtain ⟨hl, he⟩ := List.getElem?_eq_some.mp hrow
      exact he ▸ List.getElem_mem hl
    have hb : b < row.length := (List.getElem?_eq_some.mp h).1
    rw [hrows _ hmem] at hb
    omega

theorem chainOk_iff {m : VMaze} : ∀ {p : List Pos},
    chainOk m p = true ↔ List.Chain' (edgeStep m) p := by
  intro p
  match p with
  | [] => simp [chainOk]
  | [a] => simp [chainOk]
  | a :: b :: tl =>
    rw [List.chain'_cons]
    have ih := chainOk_iff (m := m) (p := b :: tl)
    simp only [chainOk, Bool.and_eq_true, decide_eq_true_eq]
    rw [ih]

/-! ## Claim C9: the base strategy signals "not implemented" -/

/-- C9: invoking `find_path` on the reference/base Search Strategy fails
immediately with a `NotImplementedError` for every start/goal argument. -/
theorem claim_C9 (pf : PathfinderBase) (s g : Pos) :
    pf.find_path s g = Except.error "NotImplementedError" := rfl

/-! ## Claim C10: the string representation -/

/-- C10: the aggregate's human-readable representation is exactly
`VMaze(rows=R, cols=C, start=[r c], goal=[r c])` built from the stored
fields, the coordinate pairs bracketed and space-separated. -/
theorem claim_C10 (seed size : Nat) (s g : Pos) (mvp : Nat) (m : VMaze)
    (h : VMaze.construct seed size s g mvp = Except.ok m) :
    m.reprStr = "VMaze(rows=" ++ toString size ++ ", cols=" ++ toString size ++
      ", start=[" ++ toString s.1 ++ " " ++ toString s.2 ++
      "], goal=[" ++ toString g.1 ++ " " ++ toString g.2 ++ "])" := by
  unfold VMaze.construct at h
  split at h
  · exact absurd h (by simp)
  · rw [Except.ok.injEq] at h
    subst h
    rfl

theorem claim_C10_witness :
    VMaze.construct 42 4 (0, 0) (3, 3) 3 = Except.ok testMazeFresh ∧
    testMazeFresh.reprStr = "VMaze(rows=4, cols=4, start=[0 0], goal=[3 3])" :=
  ⟨rfl, claim_C10 42 4 (0, 0) (3, 3) 3 testMazeFresh rfl⟩

/-! ## Claim C6: size validation at construction -/

/-- C6: constructing with `size < 4` fails with the error message
"size must be at least 4" and produces no aggregate; with `size ≥ 4` the
size check passes and the aggregate stores `rows = cols = size`. -/
theorem claim_C6 (seed size : Nat) (s g : Pos) (mvp : Nat) :
    (size < 4 →
      VMaze.construct seed size s g mvp = Except.error "size must be at least 4") ∧
    (4 ≤ size → ∃ m, VMaze.construct seed size s g mvp = Except.ok m ∧
      m.rows = size ∧ m.cols = size) := by
  constructor
  · intro h
    unfold VMaze.construct
    rw [if_pos h]
  · intro h
    unfold VMaze.construct
    rw [if_neg (by omega)]
    exact ⟨_, rfl, rfl, rfl⟩

theorem claim_C6_witness :
    (3 < 4 ∧
      VMaze.construct 42 3 (0, 0) (2, 2) 3 = Except.error "size must be at least 4") ∧
    (4 ≤ 4 ∧ ∃ m, VMaze.construct 42 4 (0, 0) (3, 3) 3 = Except.ok m ∧
      m.rows = 4 ∧ m.cols = 4) :=
  ⟨⟨by decide, (claim_C6 42 3 (0, 0) (2, 2) 3).1 (by decide)⟩,
   ⟨by decide, (claim_C6 42 4 (0, 0) (3, 3) 3).2 (by decide)⟩⟩

/-! ## Claim C5: the cached path mirrors the search result -/

/-- C5: whenever the BFS strategy call returns normally, the aggregate's
cached `path` equals the returned result: the returned sequence itself on
success, and cleared (never a stale previous path) on failure. -/
theorem claim_C5 (m : VMaze) (s g : Pos) (r : Option (List Pos)) (m' : VMaze)
    (h : BFS.find_path m s g = some (r, m')) : m'.path = r := by
  unfold BFS.find_path at h
  cases hs : BFS.search m s g with
  | none => rw [hs] at h; exact absurd h (by simp)
  | some o =>
    rw [hs] at h
    cases o with
    | none =>
      rw [Option.some.injEq, Prod.mk.injEq] at h
      rw [← h.1, ← h.2]
    | some p =>
      rw [Option.some.injEq, Prod.mk.injEq] at h
      rw [← h.1, ← h.2]

theorem claim_C5_witness :
    BFS.find_path testMazeBfs (0, 0) (3, 3) =
      some (some [(0, 0), (0, 1), (0, 2), (1, 2), (2, 2), (3, 2), (3, 3)],
        { testMazeBfs with
            path := some [(0, 0), (0, 1), (0, 2), (1, 2), (2, 2), (3, 2), (3, 3)] }) ∧
    ({ testMazeBfs with
        path := some [(0, 0), (0, 1), (0, 2), (1, 2), (2, 2), (3, 2), (3, 3)] } :
      VMaze).path = some [(0, 0), (0, 1), (0, 2), (1, 2), (2, 2), (3, 2), (3, 3)] :=
  ⟨by decide, claim_C5 testMazeBfs (0, 0) (3, 3) _ _ (by decide)⟩

/-! ## Claim C7: generation is deterministic in its parameters -/

/-- C7: two aggregates constructed with the same seed, size, start, goal
and `min_valid_paths` generate identical results — in particular identical
grids (generation is a deterministic function of its parameters). -/
theorem claim_C7 (seed size : Nat) (s g : Pos) (mvp : Nat) (m1 m2 : VMaze)
    (h1 : VMaze.construct seed size s g mvp = Except.ok m1)
    (h2 : VMaze.construct seed size s g mvp = Except.ok m2) :
    m1.generate_maze = m2.generate_maze ∧
    ∀ g1 g2, m1.generate_maze = some g1 → m2.generate_maze = some g2 →
      g1.maze_map = g2.maze_map := by
  rw [h1, Except.ok.injEq] at h2
  subst h2
  refine ⟨rfl, fun g1 g2 e1 e2 => ?_⟩
  rw [e1, Option.some.injEq] at e2
  rw [e2]

theorem claim_C7_witness :
    VMaze.construct 42 4 (0, 0) (3, 3) 3 = Except.ok testMazeFresh ∧
    testMazeFresh.generate_maze = testMazeFresh.generate_maze :=
  ⟨rfl, (claim_C7 42 4 (0, 0) (3, 3) 3 testMazeFresh testMazeFresh rfl rfl).1⟩

/-! ## Claim C8: out-of-bounds start/goal fails only at grid access -/

theorem setCell_oob_none {m : VMaze} {R C : Nat} (hd : GridDims m.maze_map R C)
    {r c : Nat} (hoob : R ≤ r ∨ C ≤ c) (v : Nat) : setCell m r c v = none := by
  have h1 : m.maze_map.length = R := hd.1
  rcases hrow : m.maze_map[r]? with _ | row
  · simp only [setCell, hrow]
  · have hr : r < m.maze_map.length := (List.getElem?_eq_some.mp hrow).1
    have hmem : row ∈ m.maze_map := by
      obtain ⟨hl, he⟩ := List.getElem?_eq_some.mp hrow
      exact he ▸ List.getElem_mem hl
    have hlen : row.length = C := hd.2 _ hmem
    have hc : ¬ c < row.length := by omega
    simp only [setCell, hrow]
    rw [if_neg hc]

theorem setCell_inb_some {m : VMaze} {R C : Nat} (hd : GridDims m.maze_map R C)
    {r c : Nat} (hr : r < R) (hc : c < C) (v : Nat) :
    ∃ grid', setCell m r c v = some { m with maze_map := grid' } ∧
      GridDims grid' R C := by
  have hr' : r < m.maze_map.length := by rw [hd.1]; exact hr
  have hmem : m.maze_map[r] ∈ m.maze_map := List.getElem_mem hr'
  have hlen : (m.maze_map[r]).length = C := hd.2 _ hmem
  refine ⟨m.maze_map.set r ((m.maze_map[r]).set c v), ?_, ?_, ?_⟩
  · simp only [setCell, List.getElem?_eq_getElem hr']
    rw [if_pos (by omega)]
  · rw [List.length_set, hd.1]
  · intro row hrow
    rcases List.mem_or_eq_of_mem_set hrow with h | h
    · exact hd.2 _ h
    · rw [h, List.length_set, hlen]

theorem generate_none_of_oob (m : VMaze)
    (hoob : m.rows ≤ m.start.1 ∨ m.cols ≤ m.start.2 ∨
            m.rows ≤ m.goal.1 ∨ m.cols ≤ m.goal.2) :
    m.generate_maze = none := by
  have hd : GridDims (resetGrid m).maze_map m.rows m.cols :=
    gridDims_replicate _ _ _
  by_cases hs : m.start.1 < m.rows ∧ m.start.2 < m.cols
  · obtain ⟨grid', he1, hd1⟩ := setCell_inb_some hd hs.1 hs.2 1
    have hg : m.rows ≤ m.goal.1 ∨ m.cols ≤ m.goal.2 := by omega
    have he2 : setCell { resetGrid m with maze_map := grid' }
        m.goal.1 m.goal.2 1 = none := setCell_oob_none hd1 hg 1
    simp only [VMaze.generate_maze, he1, he2]
  · have hs' : m.rows ≤ m.start.1 ∨ m.cols ≤ m.start.2 := by omega
    have he1 : setCell (resetGrid m) m.start.1 m.start.2 1 = none :=
      setCell_oob_none hd hs' 1
    simp only [VMaze.generate_maze, he1]

/-- C8: with any out-of-bounds start or goal coordinate (and a valid size),
construction of the aggregate still succeeds — the bounds violation only
surfaces as an indexing error (`none`) when `generate_maze` first
dereferences the coordinate against the grid. -/
theorem claim_C8 (seed size : Nat) (s g : Pos) (mvp : Nat) (hsz : 4 ≤ size)
    (hoob : size ≤ s.1 ∨ size ≤ s.2 ∨ size ≤ g.1 ∨ size ≤ g.2) :
    ∃ m, VMaze.construct seed size s g mvp = Except.ok m ∧
      m.generate_maze = none := by
  refine ⟨freshMaze seed size s g mvp, ?_, ?_⟩
  · unfold VMaze.construct
    rw [if_neg (by omega)]
    rfl
  · exact generate_none_of_oob _ (by
      rcases hoob with h | h | h | h
      · exact Or.inl h
      · exact Or.inr (Or.inl h)
      · exact Or.inr (Or.inr (Or.inl h))
      · exact Or.inr (Or.inr (Or.inr h)))

theorem claim_C8_witness :
    (4 ≤ 4 ∧ (4 ≤ (0 : Nat) ∨ 4 ≤ (0 : Nat) ∨ 4 ≤ (4 : Nat) ∨ 4 ≤ (4 : Nat))) ∧
    ∃ m, VMaze.construct 42 4 (0, 0) (4, 4) 3 = Except.ok m ∧
      m.generate_maze = none :=
  ⟨⟨by decide, by decide⟩,
   claim_C8 42 4 (0, 0) (4, 4) 3 (by decide) (by decide)⟩

/-! ## Claim C4: the neighbour tuple contract -/

theorem neighEntry_of_some {m : VMaze} {nr nc v : Nat}
    (h : cellVal m nr nc = some v) (b : Bool) (hb : b = true) :
    neighEntry m b nr nc = some (some (nr, nc, v)) := by
  subst hb
  unfold neighEntry
  rw [if_pos rfl, h]

theorem neighEntry_of_false (m : VMaze) (nr nc : Nat) (b : Bool) (hb : b = false) :
    neighEntry m b nr nc = some none := by
  subst hb
  unfold neighEntry
  rw [if_neg (by simp)]

/-- C4: for every well-formed grid and in-bounds `(row, col)`, the
neighbour query returns normally a 4-tuple in the fixed order up, down,
left, right; a direction leaving the grid yields `None`, and an in-bounds
direction yields `(neighbor_row, neighbor_col, flag)` with the flag equal
to the grid value at that neighbour. -/
theorem claim_C4 (m : VMaze) (r c : Nat) (hwf : WF m)
    (hr : r < m.rows) (hc : c < m.cols) :
    ∃ u d l rt, m.get_cell_neighbours r c = some (u, d, l, rt) ∧
      (if r = 0 then u = none
        else ∃ v, cellVal m (r - 1) c = some v ∧ u = some (r - 1, c, v)) ∧
      (if r + 1 < m.rows then
        ∃ v, cellVal m (r + 1) c = some v ∧ d = some (r + 1, c, v)
        else d = none) ∧
      (if c = 0 then l = none
        else ∃ v, cellVal m r (c - 1) = some v ∧ l = some (r, c - 1, v)) ∧
      (if c + 1 < m.cols then
        ∃ v, cellVal m r (c + 1) = some v ∧ rt = some (r, c + 1, v)
        else rt = none) := by
  have hup : ∃ u, neighEntry m (decide (0 < r)) (r - 1) c = some u ∧
      (if r = 0 then u = none
        else ∃ v, cellVal m (r - 1) c = some v ∧ u = some (r - 1, c, v)) := by
    by_cases h0 : r = 0
    · exact ⟨none, neighEntry_of_false _ _ _ _ (by simp [h0]), by rw [if_pos h0]⟩
    · obtain ⟨v, hv⟩ := cellVal_some_of_lt hwf (a := r - 1) (b := c) (by omega) hc
      exact ⟨some (r - 1, c, v), neighEntry_of_some hv _ (by simp; omega),
        by rw [if_neg h0]; exact ⟨v, hv, rfl⟩⟩
  have hdown : ∃ d, neighEntry m (decide (r + 1 < m.rows)) (r + 1) c = some d ∧
      (if r + 1 < m.rows then
        ∃ v, cellVal m (r + 1) c = some v ∧ d = some (r + 1, c, v)
        else d = none) := by
    by_cases h0 : r + 1 < m.rows
    · obtain ⟨v, hv⟩ := cellVal_some_of_lt hwf (a := r + 1) (b := c) h0 hc
      exact ⟨some (r + 1, c, v), neighEntry_of_some hv _ (by simpa using h0),
        by rw [if_pos h0]; exact ⟨v, hv, rfl⟩⟩
    · exact ⟨none, neighEntry_of_false _ _ _ _ (by simpa using h0), by rw [if_neg h0]⟩
  have hleft : ∃ l, neighEntry m (decide (0 < c)) r (c - 1) = some l ∧
      (if c = 0 then l = none
        else ∃ v, cellVal m r (c - 1) = some v ∧ l = some (r, c - 1, v)) := by
    by_cases h0 : c = 0
    · exact ⟨none, neighEntry_of_false _ _ _ _ (by simp [h0]), by rw [if_pos h0]⟩
    · obtain ⟨v, hv⟩ := cellVal_some_of_lt hwf (a := r) (b := c - 1) hr (by omega)
      exact ⟨some (r, c - 1, v), neighEntry_of_some hv _ (by simp; omega),
        by rw [if_neg h0]; exact ⟨v, hv, rfl⟩⟩
  have hright : ∃ rt, neighEntry m (decide (c + 1 < m.cols)) r (c + 1) = some rt ∧
      (if c + 1 < m.cols then
        ∃ v, cellVal m r (c + 1) = some v ∧ rt = some (r, c + 1, v)
        else rt = none) := by
    by_cases h0 : c + 1 < m.cols
    · obtain ⟨v, hv⟩ := cellVal_some_of_lt hwf (a := r) (b := c + 1) hr h0
      exact ⟨some (r, c + 1, v), neighEntry_of_some hv _ (by simpa using h0),
        by rw [if_pos h0]; exact ⟨v, hv, rfl⟩⟩
    · exact ⟨none, neighEntry_of_false _ _ _ _ (by simpa using h0), by rw [if_neg h0]⟩
  obtain ⟨u, hu1, hu2⟩ := hup
  obtain ⟨d, hd1, hd2⟩ := hdown
  obtain ⟨l, hl1, hl2⟩ := hleft
  obtain ⟨rt, hrt1, hrt2⟩ := hright
  refine ⟨u, d, l, rt, ?_, hu2, hd2, hl2, hrt2⟩
  unfold VMaze.get_cell_neighbours
  rw [hu1, hd1, hl1, hrt1]

theorem claim_C4_witness :
    (WF testMazeVmaze ∧ 0 < testMazeVmaze.rows ∧ 0 < testMazeVmaze.cols) ∧
    ∃ u d l rt, testMazeVmaze.get_cell_neighbours 0 0 = some (u, d, l, rt) ∧
      (if (0 : Nat) = 0 then u = none
        else ∃ v, cellVal testMazeVmaze (0 - 1) 0 = some v ∧ u = some (0 - 1, 0, v)) ∧
      (if 0 + 1 < testMazeVmaze.rows then
        ∃ v, cellVal testMazeVmaze (0 + 1) 0 = some v ∧ d = some (0 + 1, 0, v)
        else d = none) ∧
      (if (0 : Nat) = 0 then l = none
        else ∃ v, cellVal testMazeVmaze 0 (0 - 1) = some v ∧ l = some (0, 0 - 1, v)) ∧
      (if 0 + 1 < testMazeVmaze.cols then
        ∃ v, cellVal testMazeVmaze 0 (0 + 1) = some v ∧ rt = some (0, 0 + 1, v)
        else rt = none) :=
  ⟨⟨by decide, by decide, by decide⟩,
   claim_C4 testMazeVmaze 0 0 (by decide) (by decide) (by decide)⟩

/-! ## Path and predecessor-chain machinery -/

theorem validPath_length_pos {m : VMaze} {s g : Pos} {p : List Pos}
    (h : ValidPath m s g p) : 0 < p.length := by
  rcases p with _ | ⟨a, t⟩
  · exact absurd h.1 (by simp)
  · simp

theorem validPath_singleton (m : VMaze) (s : Pos) : ValidPath m s s [s] := by
  exact ⟨rfl, rfl, List.chain'_singleton s⟩

theorem validPath_snoc {m : VMaze} {s c y : Pos} {p : List Pos}
    (h : ValidPath m s c p) (he : edgeStep m c y) : ValidPath m s y (p ++ [y]) := by
  obtain ⟨h1, h2, h3⟩ := h
  refine ⟨?_, by simp, ?_⟩
  · rcases p with _ | ⟨a, t⟩
    · exact absurd h1 (by simp)
    · simpa using h1
  · rw [List.chain'_append]
    refine ⟨h3, List.chain'_singleton y, ?_⟩
    intro x hx z hz
    simp only [List.head?_cons, Option.mem_def, Option.some.injEq] at hz
    rw [h2] at hx
    simp only [Option.mem_def, Option.some.injEq] at hx
    rw [← hx, ← hz]
    exact he

theorem validPath_start_passable {m : VMaze} {s g : Pos} {p : List Pos}
    (h : ValidPath m s g p) (hne : s ≠ g) : passableCell m s := by
  obtain ⟨h1, h2, h3⟩ := h
  rcases p with _ | ⟨a, t⟩
  · exact absurd h1 (by simp)
  · simp only [List.head?_cons, Option.some.injEq] at h1
    subst h1
    rcases t with _ | ⟨b, t2⟩
    · simp only [List.getLast?_singleton, Option.some.injEq] at h2
      exact absurd h2 hne
    · have := List.chain'_cons.mp h3
      exact this.1.2.1

namespace BFS

theorem lookupPred_append_left {pred : List (Pos × Pos)} {c q : Pos}
    (h : lookupPred pred c = some q) (ext : List (Pos × Pos)) :
    lookupPred (pred ++ ext) c = some q := by
  induction pred with
  | nil => exact absurd h (by simp [lookupPred])
  | cons kv rest ih =>
    simp only [lookupPred, List.cons_append] at h ⊢
    by_cases hk : kv.1 = c
    · rw [if_pos hk] at h ⊢; exact h
    · rw [if_neg hk] at h ⊢; exact ih h

theorem lookupPred_eq_none {pred : List (Pos × Pos)} {c : Pos}
    (h : ∀ kv ∈ pred, kv.1 ≠ c) : lookupPred pred c = none := by
  induction pred with
  | nil => rfl
  | cons kv rest ih =>
    simp only [lookupPred]
    rw [if_neg (h kv (by simp))]
    exact ih fun kv2 hkv2 => h kv2 (by simp [hkv2])

theorem lookupPred_append_right {pred : List (Pos × Pos)} {c : Pos}
    (h : lookupPred pred c = none) (ext : List (Pos × Pos)) :
    lookupPred (pred ++ ext) c = lookupPred ext c := by
  induction pred with
  | nil => rfl
  | cons kv rest ih =>
    simp only [lookupPred, List.cons_append] at h ⊢
    by_cases hk : kv.1 = c
    · rw [if_pos hk] at h; exact absurd h (by simp)
    · rw [if_neg hk] at h ⊢; exact ih h

theorem lookupPred_map_self {l : List Pos} {c : Pos} (h : c ∈ l) (x : Pos) :
    lookupPred (l.map fun n => (n, x)) c = some x := by
  induction l with
  | nil => exact absurd h (by simp)
  | cons a t ih =>
    simp only [List.map_cons]
    unfold lookupPred
    by_cases ha : a = c
    · rw [if_pos ha]
    · rw [if_neg ha]
      exact ih (by rcases List.mem_cons.mp h with h1 | h1
                   · exact absurd h1.symm ha
                   · exact h1)

theorem PredChain.extend {pred : List (Pos × Pos)} {s c : Pos} {p : List Pos}
    (h : PredChain pred s c p) (ext : List (Pos × Pos)) :
    PredChain (pred ++ ext) s c p := by
  induction h with
  | base => exact PredChain.base
  | step hne hl _ ih => exact PredChain.step hne (lookupPred_append_left hl ext) ih

theorem backtrack_of_chain {pred : List (Pos × Pos)} {s c : Pos} {p : List Pos}
    (h : PredChain pred s c p) :
    ∀ fuel acc, p.length ≤ fuel → backtrackAux pred s fuel c acc = some (p ++ acc) := by
  induction h with
  | base =>
    intro fuel acc hf
    rcases fuel with _ | f
    · simp at hf
    · unfold backtrackAux
      rw [if_pos rfl]
      simp
  | step hne hl _ ih =>
    intro fuel acc hf
    rcases fuel with _ | f
    · simp at hf
    · unfold backtrackAux
      rw [if_neg hne, hl]
      exact (ih f _ (by simp at hf; omega)).trans (by simp)

theorem predChain_length_pos {pred : List (Pos × Pos)} {s c : Pos} {p : List Pos}
    (h : PredChain pred s c p) : 0 < p.length := by
  induction h with
  | base => simp
  | step _ _ _ _ => simp

theorem nodup_subset_length {l l2 : List Pos} (hl : l.Nodup) (hsub : l ⊆ l2) :
    l.length ≤ l2.length := by
  have h1 : l.toFinset.card = l.length := List.toFinset_card_of_nodup hl
  have h2 : l.toFinset ⊆ l2.toFinset := by
    intro a ha
    simp only [List.mem_toFinset] at *
    exact hsub ha
  have h3 := Finset.card_le_card h2
  have h4 : l2.toFinset.card ≤ l2.length := l2.toFinset_card_le
  omega

end BFS

/-! ## Neighbour-candidate lemmas -/

namespace BFS

theorem neighEntry_some_elim {m : VMaze} {b : Bool} {nr nc : Nat}
    {e : Option (Nat × Nat × Nat)} (h : neighEntry m b nr nc = some e) :
    (b = false ∧ e = none) ∨
    (b = true ∧ ∃ v, cellVal m nr nc = some v ∧ e = some (nr, nc, v)) := by
  cases b with
  | false =>
    left
    refine ⟨rfl, ?_⟩
    unfold neighEntry at h
    rw [if_neg (by simp)] at h
    exact (Option.some.injEq .. ▸ h).symm
  | true =>
    right
    refine ⟨rfl, ?_⟩
    unfold neighEntry at h
    rw [if_pos rfl] at h
    rcases hv : cellVal m nr nc with _ | v
    · rw [hv] at h; exact absurd h (by simp)
    · rw [hv] at h
      exact ⟨v, rfl, by simpa using h.symm⟩

theorem gcn_shape {m : VMaze} {r c : Nat}
    {t : Option (Nat × Nat × Nat) × Option (Nat × Nat × Nat) ×
         Option (Nat × Nat × Nat) × Option (Nat × Nat × Nat)}
    (h : m.get_cell_neighbours r c = some t) :
    ((r = 0 ∧ t.1 = none) ∨
      (0 < r ∧ ∃ v, cellVal m (r - 1) c = some v ∧ t.1 = some (r - 1, c, v))) ∧
    ((¬ r + 1 < m.rows ∧ t.2.1 = none) ∨
      (r + 1 < m.rows ∧ ∃ v, cellVal m (r + 1) c = some v ∧ t.2.1 = some (r + 1, c, v))) ∧
    ((c = 0 ∧ t.2.2.1 = none) ∨
      (0 < c ∧ ∃ v, cellVal m r (c - 1) = some v ∧ t.2.2.1 = some (r, c - 1, v))) ∧
    ((¬ c + 1 < m.cols ∧ t.2.2.2 = none) ∨
      (c + 1 < m.cols ∧ ∃ v, cellVal m r (c + 1) = some v ∧ t.2.2.2 = some (r, c + 1, v))) := by
  unfold VMaze.get_cell_neighbours at h
  rcases h1 : neighEntry m (decide (0 < r)) (r - 1) c with _ | u <;> rw [h1] at h
  · exact absurd h (by simp)
  rcases h2 : neighEntry m (decide (r + 1 < m.rows)) (r + 1) c with _ | d <;> rw [h2] at h
  · exact absurd h (by simp)
  rcases h3 : neighEntry m (decide (0 < c)) r (c - 1) with _ | l <;> rw [h3] at h
  · exact absurd h (by simp)
  rcases h4 : neighEntry m (decide (c + 1 < m.cols)) r (c + 1) with _ | rt <;> rw [h4] at h
  · exact absurd h (by simp)
  have ht : t = (u, d, l, rt) := by
    rw [Option.some.injEq] at h
    exact h.symm
  subst ht
  refine ⟨?_, ?_, ?_, ?_⟩
  · rcases neighEntry_some_elim h1 with ⟨hb, he⟩ | ⟨hb, v, hv, he⟩
    · exact Or.inl ⟨by simpa using hb, he⟩
    · exact Or.inr ⟨by simpa using hb, v, hv, he⟩
  · rcases neighEntry_some_elim h2 with ⟨hb, he⟩ | ⟨hb, v, hv, he⟩
    · exact Or.inl ⟨by simpa using hb, he⟩
    · exact Or.inr ⟨by simpa using hb, v, hv, he⟩
  · rcases neighEntry_some_elim h3 with ⟨hb, he⟩ | ⟨hb, v, hv, he⟩
    · exact Or.inl ⟨by simpa using hb, he⟩
    · exact Or.inr ⟨by simpa using hb, v, hv, he⟩
  · rcases neighEntry_some_elim h4 with ⟨hb, he⟩ | ⟨hb, v, hv, he⟩
    · exact Or.inl ⟨by simpa using hb, he⟩
    · exact Or.inr ⟨by simpa using hb, v, hv, he⟩

theorem mem_entryList {t : Option (Nat × Nat × Nat) × Option (Nat × Nat × Nat) ×
    Option (Nat × Nat × Nat) × Option (Nat × Nat × Nat)} {e : Nat × Nat × Nat} :
    e ∈ entryList t ↔
      t.1 = some e ∨ t.2.1 = some e ∨ t.2.2.1 = some e ∨ t.2.2.2 = some e := by
  simp only [entryList, List.mem_filterMap, id_eq, List.mem_cons,
    List.mem_singleton, List.not_mem_nil, or_false]
  constructor
  · rintro ⟨o, ho, heq⟩
    subst heq
    rcases ho with h | h | h | h
    · exact Or.inl h.symm
    · exact Or.inr (Or.inl h.symm)
    · exact Or.inr (Or.inr (Or.inl h.symm))
    · exact Or.inr (Or.inr (Or.inr h.symm))
  · rintro (h | h | h | h)
    · exact ⟨t.1, Or.inl rfl, h⟩
    · exact ⟨t.2.1, Or.inr (Or.inl rfl), h⟩
    · exact ⟨t.2.2.1, Or.inr (Or.inr (Or.inl rfl)), h⟩
    · exact ⟨t.2.2.2, Or.inr (Or.inr (Or.inr rfl)), h⟩

theorem mem_candidateCells {m : VMaze} {cur : Pos}
    {t : Option (Nat × Nat × Nat) × Option (Nat × Nat × Nat) ×
         Option (Nat × Nat × Nat) × Option (Nat × Nat × Nat)} {p : Pos} :
    p ∈ candidateCells m cur t ↔
      cellVal m cur.1 cur.2 = some 1 ∧
      ∃ e, e ∈ entryList t ∧ e.2.2 = 1 ∧ p = (e.1, e.2.1) := by
  unfold candidateCells
  by_cases hcur : cellVal m cur.1 cur.2 = some 1
  · rw [if_pos hcur]
    simp only [List.mem_map, List.mem_filter, decide_eq_true_eq, hcur, true_and]
    constructor
    · rintro ⟨e, ⟨he, hf⟩, rfl⟩
      exact ⟨e, he, hf, rfl⟩
    · rintro ⟨e, he, hf, rfl⟩
      exact ⟨e, ⟨he, hf⟩, rfl⟩
  · rw [if_neg hcur]
    simp [hcur]

theorem cand_sound {m : VMaze} {cur : Pos}
    {t : Option (Nat × Nat × Nat) × Option (Nat × Nat × Nat) ×
         Option (Nat × Nat × Nat) × Option (Nat × Nat × Nat)} {p : Pos}
    (hg : m.get_cell_neighbours cur.1 cur.2 = some t)
    (hp : p ∈ candidateCells m cur t) : edgeStep m cur p := by
  obtain ⟨hcur, e, he, hf, rfl⟩ := mem_candidateCells.mp hp
  obtain ⟨s1, s2, s3, s4⟩ := gcn_shape hg
  rcases mem_entryList.mp he with h | h | h | h
  · rcases s1 with ⟨_, hn⟩ | ⟨hr, v, hv, hu⟩
    · rw [h] at hn; exact absurd hn (by simp)
    · rw [h, Option.some.injEq] at hu
      subst hu
      refine ⟨Or.inr ⟨rfl, Or.inr (by omega)⟩, hcur, ?_⟩
      show cellVal m (cur.1 - 1) cur.2 = some 1
      rw [hv]
      simp only at hf
      rw [hf]
  · rcases s2 with ⟨_, hn⟩ | ⟨hr, v, hv, hd⟩
    · rw [h] at hn; exact absurd hn (by simp)
    · rw [h, Option.some.injEq] at hd
      subst hd
      refine ⟨Or.inr ⟨rfl, Or.inl rfl⟩, hcur, ?_⟩
      show cellVal m (cur.1 + 1) cur.2 = some 1
      rw [hv]
      simp only at hf
      rw [hf]
  · rcases s3 with ⟨_, hn⟩ | ⟨hc, v, hv, hl⟩
    · rw [h] at hn; exact absurd hn (by simp)
    · rw [h, Option.some.injEq] at hl
      subst hl
      refine ⟨Or.inl ⟨rfl, Or.inr (show cur.2 - 1 + 1 = cur.2 by omega)⟩, hcur, ?_⟩
      show cellVal m cur.1 (cur.2 - 1) = some 1
      rw [hv]
      simp only at hf
      rw [hf]
  · rcases s4 with ⟨_, hn⟩ | ⟨hc, v, hv, hr⟩
    · rw [h] at hn; exact absurd hn (by simp)
    · rw [h, Option.some.injEq] at hr
      subst hr
      refine ⟨Or.inl ⟨rfl, Or.inl rfl⟩, hcur, ?_⟩
      show cellVal m cur.1 (cur.2 + 1) = some 1
      rw [hv]
      simp only at hf
      rw [hf]

theorem cand_complete {m : VMaze} {cur : Pos}
    {t : Option (Nat × Nat × Nat) × Option (Nat × Nat × Nat) ×
         Option (Nat × Nat × Nat) × Option (Nat × Nat × Nat)} {y : Pos}
    (hwf : WF m) (hg : m.get_cell_neighbours cur.1 cur.2 = some t)
    (he : edgeStep m cur y) : y ∈ candidateCells m cur t := by
  obtain ⟨hadj, hpc, hpy⟩ := he
  obtain ⟨s1, s2, s3, s4⟩ := gcn_shape hg
  rw [mem_candidateCells]
  refine ⟨hpc, ?_⟩
  have hybound := cellVal_lt_of_some hwf hpy
  rcases hadj with ⟨hrow, hcol | hcol⟩ | ⟨hcol, hrow | hrow⟩
  · -- right neighbour: y = (cur.1, cur.2 + 1)
    have hy : y = (cur.1, cur.2 + 1) := by
      ext
      · exact hrow.symm
      · exact hcol.symm
    rcases s4 with ⟨hn, _⟩ | ⟨_, v, hv, hr⟩
    · exact absurd (by rw [hy] at hybound; exact hybound.2) hn
    · refine ⟨(cur.1, cur.2 + 1, v), mem_entryList.mpr (Or.inr (Or.inr (Or.inr hr))), ?_, by rw [hy]⟩
      have : v = 1 := by
        rw [hy] at hpy
        unfold passableCell at hpy
        simp only at hpy
        rw [hpy] at hv
        exact (Option.some.inj hv).symm
      simpa using this
  · -- left neighbour: y = (cur.1, cur.2 - 1) with y.2 + 1 = cur.2
    have hc0 : 0 < cur.2 := by omega
    have hy : y = (cur.1, cur.2 - 1) := by
      ext
      · exact hrow.symm
      · omega
    rcases s3 with ⟨hn, _⟩ | ⟨_, v, hv, hl⟩
    · omega
    · refine ⟨(cur.1, cur.2 - 1, v), mem_entryList.mpr (Or.inr (Or.inr (Or.inl hl))), ?_, by rw [hy]⟩
      have : v = 1 := by
        rw [hy] at hpy
        unfold passableCell at hpy
        simp only at hpy
        rw [hpy] at hv
        exact (Option.some.inj hv).symm
      simpa using this
  · -- down neighbour: y = (cur.1 + 1, cur.2)
    have hy : y = (cur.1 + 1, cur.2) := by
      ext
      · exact hrow.symm
      · exact hcol.symm
    rcases s2 with ⟨hn, _⟩ | ⟨_, v, hv, hd⟩
    · exact absurd (by rw [hy] at hybound; exact hybound.1) hn
    · refine ⟨(cur.1 + 1, cur.2, v), mem_entryList.mpr (Or.inr (Or.inl hd)), ?_, by rw [hy]⟩
      have : v = 1 := by
        rw [hy] at hpy
        unfold passableCell at hpy
        simp only at hpy
        rw [hpy] at hv
        exact (Option.some.inj hv).symm
      simpa using this
  · -- up neighbour: y = (cur.1 - 1, cur.2) with y.1 + 1 = cur.1
    have hr0 : 0 < cur.1 := by omega
    have hy : y = (cur.1 - 1, cur.2) := by
      ext
      · omega
      · exact hcol.symm
    rcases s1 with ⟨hn, _⟩ | ⟨_, v, hv, hu⟩
    · omega
    · refine ⟨(cur.1 - 1, cur.2, v), mem_entryList.mpr (Or.inl hu), ?_, by rw [hy]⟩
      have : v = 1 := by
        rw [hy] at hpy
        unfold passableCell at hpy
        simp only at hpy
        rw [hpy] at hv
        exact (Option.some.inj hv).symm
      simpa using this

end BFS

namespace BFS

theorem cand_nodup {m : VMaze} {cur : Pos}
    {t : Option (Nat × Nat × Nat) × Option (Nat × Nat × Nat) ×
         Option (Nat × Nat × Nat) × Option (Nat × Nat × Nat)}
    (hg : m.get_cell_neighbours cur.1 cur.2 = some t) :
    (candidateCells m cur t).Nodup := by
  have hsub : List.Sublist
      (((entryList t).filter (fun e => decide (e.2.2 = 1))).map
        (fun e => ((e.1, e.2.1) : Pos)))
      ((entryList t).map (fun e => ((e.1, e.2.1) : Pos))) :=
    List.Sublist.map _ (List.filter_sublist _)
  have hfull : ((entryList t).map (fun e => ((e.1, e.2.1) : Pos))).Nodup := by
    obtain ⟨s1, s2, s3, s4⟩ := gcn_shape hg
    rcases s1 with ⟨hg1, he1⟩ | ⟨hg1, v1, hv1, he1⟩ <;>
      rcases s2 with ⟨hg2, he2⟩ | ⟨hg2, v2, hv2, he2⟩ <;>
        rcases s3 with ⟨hg3, he3⟩ | ⟨hg3, v3, hv3, he3⟩ <;>
          rcases s4 with ⟨hg4, he4⟩ | ⟨hg4, v4, hv4, he4⟩ <;>
            simp [entryList, he1, he2, he3, he4, Prod.mk.injEq] <;>
              omega
  unfold candidateCells
  split
  · exact hsub.nodup hfull
  · exact List.nodup_nil

theorem mem_stepNew {m : VMaze} {cur : Pos}
    {t : Option (Nat × Nat × Nat) × Option (Nat × Nat × Nat) ×
         Option (Nat × Nat × Nat) × Option (Nat × Nat × Nat)}
    {visited : List Pos} {q : Pos} :
    q ∈ stepNew m cur t visited ↔ q ∈ candidateCells m cur t ∧ q ∉ visited := by
  simp [stepNew, List.mem_filter]

theorem stepNew_nodup {m : VMaze} {cur : Pos}
    {t : Option (Nat × Nat × Nat) × Option (Nat × Nat × Nat) ×
         Option (Nat × Nat × Nat) × Option (Nat × Nat × Nat)} {visited : List Pos}
    (hg : m.get_cell_neighbours cur.1 cur.2 = some t) :
    (stepNew m cur t visited).Nodup :=
  (cand_nodup hg).filter _

theorem chainPack_extend {m : VMaze} {start : Pos} {visited new : List Pos}
    {pred ext : List (Pos × Pos)} {c : Pos} {p : List Pos}
    (h : ChainPack m start visited pred c p) :
    ChainPack m start (visited ++ new) (pred ++ ext) c p := by
  obtain ⟨h1, h2, h3, h4⟩ := h
  exact ⟨h1.extend ext, h2, h3, fun x hx => List.mem_append_left _ (h4 x hx)⟩

/-- One dequeue-and-expand step of the loop preserves the soundness
invariant. -/
theorem sinv_step {m : VMaze} {start cur : Pos} {rest visited : List Pos}
    {pred : List (Pos × Pos)}
    {t : Option (Nat × Nat × Nat) × Option (Nat × Nat × Nat) ×
         Option (Nat × Nat × Nat) × Option (Nat × Nat × Nat)}
    (h : SInv m start (cur :: rest) visited pred)
    (hg : m.get_cell_neighbours cur.1 cur.2 = some t) :
    SInv m start (rest ++ stepNew m cur t visited)
      (visited ++ stepNew m cur t visited)
      (pred ++ (stepNew m cur t visited).map (fun n => (n, cur))) := by
  obtain ⟨hsub, hstart, hnodup, hlen, hkeys, hcells⟩ := h
  have hcur : cur ∈ visited := hsub cur (by simp)
  have hnewmem : ∀ q ∈ stepNew m cur t visited,
      q ∈ candidateCells m cur t ∧ q ∉ visited := fun q hq => mem_stepNew.mp hq
  refine ⟨?_, ?_, ?_, ?_, ?_, ?_⟩
  · intro c hc
    rcases List.mem_append.mp hc with h1 | h1
    · exact List.mem_append_left _ (hsub c (by simp [h1]))
    · exact List.mem_append_right _ h1
  · exact List.mem_append_left _ hstart
  · refine hnodup.append (stepNew_nodup hg) ?_
    intro a ha hb
    exact (hnewmem a hb).2 ha
  · rw [List.length_append, List.length_append, List.length_map, hlen]
    omega
  · intro kv hkv
    rcases List.mem_append.mp hkv with h1 | h1
    · exact List.mem_append_left _ (hkeys kv h1)
    · obtain ⟨n, hn, rfl⟩ := List.mem_map.mp h1
      exact List.mem_append_right _ hn
  · intro c hc
    rcases List.mem_append.mp hc with h1 | h1
    · obtain ⟨p, hp⟩ := hcells c h1
      exact ⟨p, chainPack_extend hp⟩
    · obtain ⟨pcur, hc1, hc2, hc3, hc4⟩ := hcells cur hcur
      have hcn : c ∉ visited := (hnewmem c h1).2
      have hlook : lookupPred
          (pred ++ (stepNew m cur t visited).map (fun n => (n, cur))) c = some cur := by
        rw [lookupPred_append_right
          (lookupPred_eq_none fun kv hkv hk => hcn (by rw [← hk]; exact hkeys kv hkv)) _]
        exact lookupPred_map_self h1 cur
      have hcs : c ≠ start := fun he => hcn (he ▸ hstart)
      refine ⟨pcur ++ [c], PredChain.step hcs hlook (hc1.extend _), ?_, ?_, ?_⟩
      · exact validPath_snoc hc2 (cand_sound hg (hnewmem c h1).1)
      · rw [List.nodup_append]
        exact ⟨hc3, List.nodup_singleton c,
          fun x hx => by simp only [List.mem_singleton]
                         exact fun he => hcn (he ▸ hc4 x hx)⟩
      · intro x hx
        rcases List.mem_append.mp hx with h2 | h2
        · exact List.mem_append_left _ (hc4 x h2)
        · rw [List.mem_singleton.mp h2]
          exact List.mem_append_right _ h1

end BFS

namespace BFS

/-- Soundness of the BFS loop: any returned path is a duplicate-free valid
path from `start` to `goal`. -/
theorem bfsLoop_sound {m : VMaze} {start goal : Pos} :
    ∀ (fuel : Nat) (queue visited : List Pos) (pred : List (Pos × Pos))
      (p : List Pos),
      SInv m start queue visited pred →
      bfsLoop m start goal fuel queue visited pred = some (some p) →
      ValidPath m start goal p ∧ p.Nodup := by
  intro fuel
  induction fuel with
  | zero =>
    intro queue visited pred p _ h
    exact absurd h (by simp [bfsLoop])
  | succ f ih =>
    intro queue visited pred p hinv h
    rcases queue with _ | ⟨cur, rest⟩
    · exact absurd h (by simp [bfsLoop])
    by_cases hcur : cur = goal
    · subst hcur
      obtain ⟨pc, hc1, hc2, hc3, hc4⟩ := hinv.hcells cur (hinv.hsub cur (by simp))
      have hlenvis : visited.length = pred.length + 1 := hinv.hlen
      have hpclen : pc.length ≤ pred.length + 1 := by
        have := nodup_subset_length hc3 (fun x hx => hc4 x hx)
        omega
      have hbt := backtrack_of_chain hc1 (pred.length + 1) [] hpclen
      simp only [bfsLoop, if_true] at h
      rw [hbt] at h
      simp only [List.append_nil, Option.some.injEq] at h
      subst h
      exact ⟨hc2, hc3⟩
    · rcases hg : m.get_cell_neighbours cur.1 cur.2 with _ | t
      · simp only [bfsLoop, if_neg hcur, hg] at h
        exact absurd h (by simp)
      · simp only [bfsLoop, if_neg hcur, hg] at h
        exact ih _ _ _ p (sinv_step hinv hg) h

theorem sinv_init (m : VMaze) (s : Pos) : SInv m s [s] [s] [] := by
  refine ⟨fun c hc => hc, by simp, List.nodup_singleton s, by simp, by simp, ?_⟩
  intro c hc
  rw [List.mem_singleton.mp hc]
  exact ⟨[s], PredChain.base, validPath_singleton m s, List.nodup_singleton s,
    fun x hx => hx⟩

end BFS

/-! ## Claim C1: returned BFS paths are valid and duplicate-free -/

/-- C1: every successful BFS `find_path` call returns a sequence that starts
at `start`, ends at `goal`, steps only between 4-adjacent cells that are
both passable, and repeats no position. -/
theorem claim_C1 (m : VMaze) (s g : Pos) (p : List Pos) (m' : VMaze)
    (h : BFS.find_path m s g = some (some p, m')) :
    p.head? = some s ∧ p.getLast? = some g ∧
    List.Chain' (edgeStep m) p ∧ p.Nodup := by
  unfold BFS.find_path at h
  rcases hs : BFS.search m s g with _ | o <;> rw [hs] at h
  · exact absurd h (by simp)
  rcases o with _ | p0
  · exact absurd h (by simp)
  · have hp : p0 = p := by
      rw [Option.some.injEq, Prod.mk.injEq, Option.some.injEq] at h
      exact h.1
    subst hp
    unfold BFS.search at hs
    obtain ⟨⟨h1, h2, h3⟩, h4⟩ :=
      BFS.bfsLoop_sound (m.rows * m.cols + 2) [s] [s] [] p0 (BFS.sinv_init m s) hs
    exact ⟨h1, h2, h3, h4⟩

theorem claim_C1_witness :
    BFS.find_path testMazeBfs (0, 0) (3, 3) =
      some (some [(0, 0), (0, 1), (0, 2), (1, 2), (2, 2), (3, 2), (3, 3)],
        ({ testMazeBfs with
            path := some [(0, 0), (0, 1), (0, 2), (1, 2), (2, 2), (3, 2), (3, 3)] } :
          VMaze)) ∧
    (([(0, 0), (0, 1), (0, 2), (1, 2), (2, 2), (3, 2), (3, 3)] :
        List Pos).head? = some (0, 0) ∧
      ([(0, 0), (0, 1), (0, 2), (1, 2), (2, 2), (3, 2), (3, 3)] :
        List Pos).getLast? = some (3, 3) ∧
      List.Chain' (edgeStep testMazeBfs)
        [(0, 0), (0, 1), (0, 2), (1, 2), (2, 2), (3, 2), (3, 3)] ∧
      ([(0, 0), (0, 1), (0, 2), (1, 2), (2, 2), (3, 2), (3, 3)] :
        List Pos).Nodup) :=
  ⟨by decide, claim_C1 testMazeBfs (0, 0) (3, 3)
    [(0, 0), (0, 1), (0, 2), (1, 2), (2, 2), (3, 2), (3, 3)]
    ({ testMazeBfs with
        path := some [(0, 0), (0, 1), (0, 2), (1, 2), (2, 2), (3, 2), (3, 3)] })
    (by decide)⟩

/-! ## Frontier-crossing and counting lemmas for optimality -/

namespace BFS

/-- Every valid path from `start` to an unvisited cell crosses the queue:
it has a proper prefix that is a valid path ending at a queued cell. -/
theorem cross {m : VMaze} {start : Pos} {queue visited : List Pos}
    (hstart : start ∈ visited)
    (hclosed : ∀ c ∈ visited, c ∉ queue → ∀ y, edgeStep m c y → y ∈ visited) :
    ∀ (q : List Pos) (c : Pos), ValidPath m start c q → c ∉ visited →
      ∃ x ∈ queue, ∃ q1, ValidPath m start x q1 ∧ q1.length + 1 ≤ q.length := by
  intro q
  induction q using List.reverseRecOn with
  | nil =>
    intro c hv
    exact absurd hv.1 (by simp)
  | append_singleton q0 a ih =>
    intro c hv hc
    have ha : a = c := by
      have h2 := hv.2.1
      simpa using h2
    subst ha
    by_cases hne : q0 = []
    · subst hne
      have : a = start := by simpa using hv.1
      exact absurd (this ▸ hstart) hc
    · have hlast : q0.getLast? = some (q0.getLast hne) :=
        List.getLast?_eq_getLast q0 hne
      have hsplit := List.chain'_append.mp hv.2.2
      have hedge : edgeStep m (q0.getLast hne) a := by
        refine hsplit.2.2 _ ?_ a (by simp)
        rw [hlast]; rfl
      have hhead : q0.head? = some start := by
        have h1 := hv.1
        rcases q0 with _ | ⟨b, tl⟩
        · exact absurd rfl hne
        · simpa using h1
      have hvq0 : ValidPath m start (q0.getLast hne) q0 := ⟨hhead, hlast, hsplit.1⟩
      by_cases hz : q0.getLast hne ∈ visited
      · by_cases hzq : q0.getLast hne ∈ queue
        · exact ⟨_, hzq, q0, hvq0, by simp⟩
        · exact absurd (hclosed _ hz hzq a hedge) hc
      · obtain ⟨x, hx, q1, hq1, hle⟩ := ih _ hvq0 hz
        refine ⟨x, hx, q1, hq1, ?_⟩
        rw [List.length_append]
        simp only [List.length_singleton]
        omega

theorem forall2_mem_left {R : Pos → Nat → Prop} {l1 : List Pos} {l2 : List Nat}
    (h : List.Forall₂ R l1 l2) {a : Pos} (ha : a ∈ l1) : ∃ b ∈ l2, R a b := by
  induction h with
  | nil => exact absurd ha (by simp)
  | cons hr ht ih =>
    rcases List.mem_cons.mp ha with h1 | h1
    · exact ⟨_, by simp, h1 ▸ hr⟩
    · obtain ⟨b, hb, hrb⟩ := ih h1
      exact ⟨b, by simp [hb], hrb⟩

theorem forall2_append {R : Pos → Nat → Prop} {l1 u1 : List Pos} {l2 u2 : List Nat}
    (h1 : List.Forall₂ R l1 l2) (h2 : List.Forall₂ R u1 u2) :
    List.Forall₂ R (l1 ++ u1) (l2 ++ u2) := by
  induction h1 with
  | nil => exact h2
  | cons hr _ ih => exact List.Forall₂.cons hr ih

theorem forall2_cons_elim {R : Pos → Nat → Prop} {a : Pos} {l1 : List Pos}
    {l2 : List Nat} (h : List.Forall₂ R (a :: l1) l2) :
    ∃ b tl, l2 = b :: tl ∧ R a b ∧ List.Forall₂ R l1 tl := by
  cases h with
  | cons hr ht => exact ⟨_, _, rfl, hr, ht⟩

theorem forall2_replicate {R : Pos → Nat → Prop} {l : List Pos} {b : Nat}
    (h : ∀ a ∈ l, R a b) : List.Forall₂ R l (List.replicate l.length b) := by
  induction l with
  | nil => exact List.Forall₂.nil
  | cons a tl ih =>
    simp only [List.length_cons, List.replicate_succ]
    exact List.Forall₂.cons (h a (by simp)) (ih fun x hx => h x (by simp [hx]))

end BFS

theorem length_le_area {m : VMaze} {l : List Pos} (hnd : l.Nodup)
    (hin : ∀ c ∈ l, c.1 < m.rows ∧ c.2 < m.cols) :
    l.length ≤ m.rows * m.cols := by
  have hsub : l.toFinset ⊆ Finset.range m.rows ×ˢ Finset.range m.cols := by
    intro a ha
    simp only [List.mem_toFinset] at ha
    obtain ⟨h1, h2⟩ := hin a ha
    simp only [Finset.mem_product, Finset.mem_range]
    exact ⟨h1, h2⟩
  have h1 : l.toFinset.card = l.length := List.toFinset_card_of_nodup hnd
  have h2 := Finset.card_le_card hsub
  rw [Finset.card_product, Finset.card_range, Finset.card_range] at h2
  omega

theorem gcn_some_of_inb {m : VMaze} (hwf : WF m) {r c : Nat}
    (hr : r < m.rows) (hc : c < m.cols) :
    ∃ t, m.get_cell_neighbours r c = some t := by
  have h1 : ∃ u, neighEntry m (decide (0 < r)) (r - 1) c = some u := by
    by_cases h0 : 0 < r
    · obtain ⟨v, hv⟩ := cellVal_some_of_lt hwf (a := r - 1) (b := c) (by omega) hc
      exact ⟨_, neighEntry_of_some hv _ (by simpa using h0)⟩
    · exact ⟨_, neighEntry_of_false _ _ _ _ (by simpa using h0)⟩
  have h2 : ∃ d, neighEntry m (decide (r + 1 < m.rows)) (r + 1) c = some d := by
    by_cases h0 : r + 1 < m.rows
    · obtain ⟨v, hv⟩ := cellVal_some_of_lt hwf (a := r + 1) (b := c) h0 hc
      exact ⟨_, neighEntry_of_some hv _ (by simpa using h0)⟩
    · exact ⟨_, neighEntry_of_false _ _ _ _ (by simpa using h0)⟩
  have h3 : ∃ le, neighEntry m (decide (0 < c)) r (c - 1) = some le := by
    by_cases h0 : 0 < c
    · obtain ⟨v, hv⟩ := cellVal_some_of_lt hwf (a := r) (b := c - 1) hr (by omega)
      exact ⟨_, neighEntry_of_some hv _ (by simpa using h0)⟩
    · exact ⟨_, neighEntry_of_false _ _ _ _ (by simpa using h0)⟩
  have h4 : ∃ rt, neighEntry m (decide (c + 1 < m.cols)) r (c + 1) = some rt := by
    by_cases h0 : c + 1 < m.cols
    · obtain ⟨v, hv⟩ := cellVal_some_of_lt hwf (a := r) (b := c + 1) hr h0
      exact ⟨_, neighEntry_of_some hv _ (by simpa using h0)⟩
    · exact ⟨_, neighEntry_of_false _ _ _ _ (by simpa using h0)⟩
  obtain ⟨u, hu⟩ := h1
  obtain ⟨d, hd⟩ := h2
  obtain ⟨le, hl⟩ := h3
  obtain ⟨rt, hrt⟩ := h4
  refine ⟨(u, d, le, rt), ?_⟩
  unfold VMaze.get_cell_neighbours
  rw [hu, hd, hl, hrt]


namespace BFS

theorem forall2_cons_head {R : Pos → Nat → Prop} {a : Pos} {l1 : List Pos}
    {b : Nat} {l2 : List Nat} (h : List.Forall₂ R (a :: l1) (b :: l2)) : R a b := by
  cases h with
  | cons h1 _ => exact h1

theorem forall2_cons_tail {R : Pos → Nat → Prop} {a : Pos} {l1 : List Pos}
    {b : Nat} {l2 : List Nat} (h : List.Forall₂ R (a :: l1) (b :: l2)) :
    List.Forall₂ R l1 l2 := by
  cases h with
  | cons _ h2 => exact h2

/-- One dequeue-and-expand step preserves the optimality invariant: the
expanded cell's chains stay minimal and the queue depths stay sorted within
a spread of one. -/
theorem binv_step {m : VMaze} {start goal cur : Pos} {rest visited : List Pos}
    {pred : List (Pos × Pos)} {dcur : Nat} {dsr : List Nat}
    {t : Option (Nat × Nat × Nat) × Option (Nat × Nat × Nat) ×
         Option (Nat × Nat × Nat) × Option (Nat × Nat × Nat)}
    (hwf : WF m)
    (hb : BInv m start goal (cur :: rest) visited pred (dcur :: dsr))
    (hcg : cur ≠ goal)
    (hg : m.get_cell_neighbours cur.1 cur.2 = some t) :
    BInv m start goal (rest ++ stepNew m cur t visited)
      (visited ++ stepNew m cur t visited)
      (pred ++ (stepNew m cur t visited).map (fun n => (n, cur)))
      (dsr ++ List.replicate (stepNew m cur t visited).length (dcur + 1)) := by
  obtain ⟨hbase, hin, hclosed, hgoal, hds, hsort, hspread⟩ := hb
  have hdcur := forall2_cons_head hds
  have hdsr := forall2_cons_tail hds
  obtain ⟨pcur, hpk, hplen, hpmin⟩ := hdcur
  obtain ⟨hpk1, hpk2, hpk3, hpk4⟩ := hpk
  have hnewmem : ∀ q ∈ stepNew m cur t visited,
      q ∈ candidateCells m cur t ∧ q ∉ visited := fun q hq => mem_stepNew.mp hq
  refine ⟨sinv_step hbase hg, ?_, ?_, ?_, ?_, ?_, ?_⟩
  · intro c hc
    rcases List.mem_append.mp hc with h1 | h1
    · exact hin c h1
    · have hedge := cand_sound hg (hnewmem c h1).1
      exact cellVal_lt_of_some hwf hedge.2.2
  · intro c hc hcq y hey
    rcases List.mem_append.mp hc with hcv | hcn
    · by_cases hcc : c = cur
      · subst hcc
        have hyc := cand_complete hwf hg hey
        by_cases hyv : y ∈ visited
        · exact List.mem_append_left _ hyv
        · exact List.mem_append_right _ (mem_stepNew.mpr ⟨hyc, hyv⟩)
      · by_cases hcr : c ∈ rest
        · exact absurd (List.mem_append_left _ hcr) hcq
        · have hcnotq : c ∉ cur :: rest := by
            simp only [List.mem_cons]
            push_neg
            exact ⟨hcc, hcr⟩
          exact List.mem_append_left _ (hclosed c hcv hcnotq y hey)
    · exact absurd (List.mem_append_right _ hcn) hcq
  · intro hgv
    rcases List.mem_append.mp hgv with h1 | h1
    · rcases List.mem_cons.mp (hgoal h1) with h2 | h2
      · exact absurd h2.symm hcg
      · exact List.mem_append_left _ h2
    · exact List.mem_append_right _ h1
  · refine forall2_append (hdsr.imp ?_) (forall2_replicate ?_)
    · intro c d hcd
      obtain ⟨p, hp, hl, hm⟩ := hcd
      exact ⟨p, chainPack_extend hp, hl, hm⟩
    · intro n hn
      obtain ⟨hcand, hnv⟩ := hnewmem n hn
      have hlook : lookupPred
          (pred ++ (stepNew m cur t visited).map (fun x => (x, cur))) n = some cur := by
        rw [lookupPred_append_right
          (lookupPred_eq_none fun kv hkv hk =>
            hnv (by rw [← hk]; exact hbase.hkeys kv hkv)) _]
        exact lookupPred_map_self hn cur
      have hns : n ≠ start := fun he => hnv (he ▸ hbase.hstart)
      refine ⟨pcur ++ [n],
        ⟨PredChain.step hns hlook (hpk1.extend _),
          validPath_snoc hpk2 (cand_sound hg hcand), ?_, ?_⟩, ?_, ?_⟩
      · rw [List.nodup_append]
        exact ⟨hpk3, List.nodup_singleton n,
          fun x hx => by
            simp only [List.mem_singleton]
            exact fun he => hnv (he ▸ hpk4 x hx)⟩
      · intro x hx
        rcases List.mem_append.mp hx with h2 | h2
        · exact List.mem_append_left _ (hpk4 x h2)
        · rw [List.mem_singleton.mp h2]
          exact List.mem_append_right _ hn
      · rw [List.length_append, hplen]
        simp
      · intro q hq
        obtain ⟨x, hxq, q1, hq1, hle⟩ := cross hbase.hstart hclosed q n hq hnv
        have hxge : ∃ dx, dcur ≤ dx ∧ dx ≤ q1.length := by
          rcases List.mem_cons.mp hxq with h2 | h2
          · subst h2
            exact ⟨dcur, le_refl _, by rw [← hplen]; exact hpmin q1 hq1⟩
          · obtain ⟨dx, hdx, hpackx⟩ := forall2_mem_left hdsr h2
            obtain ⟨px, _, hplx, hpmx⟩ := hpackx
            refine ⟨dx, (List.pairwise_cons.mp hsort).1 dx hdx, ?_⟩
            rw [← hplx]
            exact hpmx q1 hq1
        obtain ⟨dx, hd1, hd2⟩ := hxge
        rw [List.length_append, hplen]
        simp only [List.length_singleton]
        omega
  · rw [List.pairwise_append]
    refine ⟨(List.pairwise_cons.mp hsort).2, ?_, ?_⟩
    · rw [List.pairwise_replicate]
      exact Or.inr (le_refl _)
    · intro a ha b hb
      have hb1 : b = dcur + 1 := List.eq_of_mem_replicate hb
      have := hspread a (by simp [ha]) dcur (by simp)
      omega
  · intro a ha b hb
    rcases List.mem_append.mp ha with ha1 | ha1 <;>
      rcases List.mem_append.mp hb with hb1 | hb1
    · exact hspread a (by simp [ha1]) b (by simp [hb1])
    · have := hspread a (by simp [ha1]) dcur (by simp)
      have hb2 : b = dcur + 1 := List.eq_of_mem_replicate hb1
      omega
    · have ha2 : a = dcur + 1 := List.eq_of_mem_replicate ha1
      have := (List.pairwise_cons.mp hsort).1 b hb1
      omega
    · have ha2 : a = dcur + 1 := List.eq_of_mem_replicate ha1
      have hb2 : b = dcur + 1 := List.eq_of_mem_replicate hb1
      omega

end BFS

namespace BFS

theorem binv_init (m : VMaze) (s goal : Pos) (hs1 : s.1 < m.rows)
    (hs2 : s.2 < m.cols) : BInv m s goal [s] [s] [] [1] := by
  refine ⟨sinv_init m s, ?_, ?_, ?_, ?_, ?_, ?_⟩
  · intro c hc
    rw [List.mem_singleton.mp hc]
    exact ⟨hs1, hs2⟩
  · intro c hc hcq
    exact absurd hc hcq
  · exact fun h => h
  · refine List.Forall₂.cons ?_ List.Forall₂.nil
    refine ⟨[s], ⟨PredChain.base, validPath_singleton m s,
      List.nodup_singleton s, fun x hx => hx⟩, by simp, ?_⟩
    intro q hq
    have := validPath_length_pos hq
    simpa using this
  · exact List.pairwise_singleton _ _
  · intro a ha b hb
    rw [List.mem_singleton.mp ha, List.mem_singleton.mp hb]
    omega

/-- Completeness and optimality of the BFS loop: starting from a state
satisfying the optimality invariant with sufficient fuel, the loop either
returns a shortest valid path to the goal or correctly reports that no
path exists. -/
theorem bfsLoop_complete {m : VMaze} {start goal : Pos} (hwf : WF m) :
    ∀ (fuel : Nat) (queue visited : List Pos) (pred : List (Pos × Pos))
      (ds : List Nat),
      BInv m start goal queue visited pred ds →
      m.rows * m.cols - visited.length + queue.length + 1 ≤ fuel →
      (∃ p, bfsLoop m start goal fuel queue visited pred = some (some p) ∧
        ValidPath m start goal p ∧
        ∀ q, ValidPath m start goal q → p.length ≤ q.length) ∨
      (bfsLoop m start goal fuel queue visited pred = some none ∧
        ¬ Reachable m start goal) := by
  intro fuel
  induction fuel with
  | zero =>
    intro queue visited pred ds hb hf
    omega
  | succ f ih =>
    intro queue visited pred ds hb hf
    rcases queue with _ | ⟨cur, rest⟩
    · right
      refine ⟨by simp [bfsLoop], ?_⟩
      rintro ⟨q, hvq⟩
      by_cases hgv : goal ∈ visited
      · exact absurd (hb.hgoal hgv) (List.not_mem_nil goal)
      · obtain ⟨x, hx, _⟩ := cross hb.base.hstart hb.hclosed q goal hvq hgv
        exact absurd hx (List.not_mem_nil x)
    · have hds := hb.hds
      rcases ds with _ | ⟨dcur, dsr⟩
      · cases hds
      by_cases hcg : cur = goal
      · left
        have hdcur := forall2_cons_head hds
        obtain ⟨p, ⟨hp1, hp2, hp3, hp4⟩, hplen, hpmin⟩ := hdcur
        have hpclen : p.length ≤ pred.length + 1 := by
          have h1 := nodup_subset_length hp3 (fun x hx => hp4 x hx)
          have h2 := hb.base.hlen
          omega
        have hbt := backtrack_of_chain hp1 (pred.length + 1) [] hpclen
        rw [hcg] at hbt
        refine ⟨p, ?_, hcg ▸ hp2, fun q hq2 => hpmin q (by rw [hcg]; exact hq2)⟩
        simp only [bfsLoop]
        rw [if_pos hcg, hbt]
        simp
      · have hcv : cur ∈ visited := hb.base.hsub cur (by simp)
        obtain ⟨hr, hc⟩ := hb.hin cur hcv
        obtain ⟨t, hgn⟩ := gcn_some_of_inb hwf hr hc
        have hb2 := binv_step hwf hb hcg hgn
        have hlen2 := length_le_area hb2.base.hnodup hb2.hin
        have hf2 : m.rows * m.cols -
            (visited ++ stepNew m cur t visited).length +
            (rest ++ stepNew m cur t visited).length + 1 ≤ f := by
          rw [List.length_append] at hlen2
          rw [List.length_append, List.length_append]
          simp only [List.length_cons] at hf
          omega
        rcases ih _ _ _ _ hb2 hf2 with h1 | h1
        · left
          obtain ⟨p, hp1, hp2, hp3⟩ := h1
          refine ⟨p, ?_, hp2, hp3⟩
          simp only [bfsLoop]
          rw [if_neg hcg, hgn]
          exact hp1
        · right
          refine ⟨?_, h1.2⟩
          simp only [bfsLoop]
          rw [if_neg hcg, hgn]
          exact h1.1

/-- BFS finds a minimum-cell-count (hence minimum-edge-count) path whenever
the goal is reachable. -/
theorem find_path_optimal {m : VMaze} {s g : Pos} (hwf : WF m)
    (hr : Reachable m s g) :
    ∃ p m', BFS.find_path m s g = some (some p, m') ∧ ValidPath m s g p ∧
      ∀ q, ValidPath m s g q → p.length ≤ q.length := by
  by_cases hsg : s = g
  · subst hsg
    have hsearch : BFS.search m s s = some (some [s]) := by
      unfold BFS.search
      show bfsLoop m s s (m.rows * m.cols + 1 + 1) [s] [s] [] = some (some [s])
      simp [bfsLoop, backtrackAux]
    refine ⟨[s], { m with path := some [s] }, ?_, validPath_singleton m s, ?_⟩
    · unfold BFS.find_path
      rw [hsearch]
    · intro q hq
      have := validPath_length_pos hq
      simpa using this
  · have hps : passableCell m s := by
      obtain ⟨q, hq⟩ := hr
      exact validPath_start_passable hq hsg
    obtain ⟨hs1, hs2⟩ := cellVal_lt_of_some hwf hps
    have hfuel : m.rows * m.cols - ([s] : List Pos).length +
        ([s] : List Pos).length + 1 ≤ m.rows * m.cols + 2 := by
      simp only [List.length_singleton]
      omega
    rcases bfsLoop_complete hwf (m.rows * m.cols + 2) [s] [s] [] [1]
        (binv_init m s g hs1 hs2) hfuel with h1 | h1
    · obtain ⟨p, hp1, hp2, hp3⟩ := h1
      have hsearch : BFS.search m s g = some (some p) := hp1
      refine ⟨p, { m with path := some p }, ?_, hp2, hp3⟩
      unfold BFS.find_path
      rw [hsearch]
    · exact absurd hr h1.2

end BFS

theorem unreachable_of_start_wall {m : VMaze} {s g : Pos}
    (hsg : s ≠ g) (hnp : ¬ passableCell m s) : ¬ Reachable m s g := by
  rintro ⟨q, hq⟩
  exact hnp (validPath_start_passable hq hsg)

/-! ## Claim C3: unreachable goal yields a normal `None` -/

/-- C3 (amended): for a well-formed grid and an in-bounds start, whenever
the goal is unreachable from the start through passable cells, the BFS
strategy returns the normal "no path" result (and clears the cached path)
instead of raising.  The in-bounds requirement on the start is forced by
the counterexample below. -/
theorem claim_C3 (m : VMaze) (s g : Pos) (hwf : WF m)
    (hs1 : s.1 < m.rows) (hs2 : s.2 < m.cols) (hnr : ¬ Reachable m s g) :
    BFS.find_path m s g = some (none, { m with path := none }) := by
  have hfuel : m.rows * m.cols - ([s] : List Pos).length +
      ([s] : List Pos).length + 1 ≤ m.rows * m.cols + 2 := by
    simp only [List.length_singleton]
    omega
  rcases BFS.bfsLoop_complete hwf (m.rows * m.cols + 2) [s] [s] [] [1]
      (BFS.binv_init m s g hs1 hs2) hfuel with h1 | h1
  · obtain ⟨p, _, hp2, _⟩ := h1
    exact absurd ⟨p, hp2⟩ hnr
  · have hsearch : BFS.search m s g = some none := h1.1
    unfold BFS.find_path
    rw [hsearch]

/-- C3 counterexample: with the staged test grid and the out-of-bounds
start `(0, 17)` — from which the goal is trivially unreachable through
passable cells — the call raises an `IndexError` (returns the exceptional
`none`) instead of returning a normal "no path" result, refuting the claim
as stated for arbitrary start coordinates. -/
theorem claim_C3_counterexample :
    ¬ Reachable testMazeBfs (0, 17) (3, 3) ∧
    BFS.find_path testMazeBfs (0, 17) (3, 3) = none :=
  ⟨unreachable_of_start_wall (by decide) (by decide), by decide⟩

theorem claim_C3_witness :
    (WF testMazeVmaze ∧ (0 : Nat) < testMazeVmaze.rows ∧
      (2 : Nat) < testMazeVmaze.cols ∧ ¬ Reachable testMazeVmaze (0, 2) (3, 3)) ∧
    BFS.find_path testMazeVmaze (0, 2) (3, 3) =
      some (none, { testMazeVmaze with path := none }) :=
  have hnr : ¬ Reachable testMazeVmaze (0, 2) (3, 3) :=
    unreachable_of_start_wall (by decide) (by decide)
  ⟨⟨by decide, by decide, by decide, hnr⟩,
    claim_C3 testMazeVmaze (0, 2) (3, 3) (by decide) (by decide) (by decide) hnr⟩

/-! ## Claim C2: BFS paths have minimum edge count -/

theorem adjacent_manhattan {a b g : Pos} (h : adjacent a b) :
    manhattanN a g ≤ manhattanN b g + 1 := by
  unfold manhattanN
  rcases h with ⟨h1, h2 | h2⟩ | ⟨h1, h2 | h2⟩ <;> omega

theorem manhattan_lb {m : VMaze} : ∀ (q : List Pos) (s g : Pos),
    ValidPath m s g q → manhattanN s g + 1 ≤ q.length := by
  intro q
  induction q with
  | nil =>
    intro s g hv
    exact absurd hv.1 (by simp)
  | cons a tl ih =>
    intro s g hv
    have ha : a = s := by simpa using hv.1
    subst ha
    rcases tl with _ | ⟨b, tl2⟩
    · have hg : a = g := by simpa using hv.2.1
      subst hg
      unfold manhattanN
      simp
    · have hchain := List.chain'_cons.mp hv.2.2
      have hvtl : ValidPath m b g (b :: tl2) :=
        ⟨by simp, by simpa using hv.2.1, hchain.2⟩
      have hih := ih b g hvtl
      have hadj := adjacent_manhattan (g := g) hchain.1.1
      simp only [List.length_cons] at hih ⊢
      omega

theorem openMaze_wf (n : Nat) : WF (openMaze n) := by
  constructor
  · simp [openMaze]
  · intro row hrow
    simp only [openMaze] at hrow
    rw [List.eq_of_mem_replicate hrow]
    simp [openMaze]

theorem openMaze_cellVal {n i j : Nat} (hi : i < n) (hj : j < n) :
    cellVal (openMaze n) i j = some 1 := by
  unfold cellVal openMaze
  simp [List.getElem?_replicate, hi, hj]

theorem openMaze_passable {n : Nat} {p : Pos} (h1 : p.1 < n) (h2 : p.2 < n) :
    passableCell (openMaze n) p :=
  openMaze_cellVal h1 h2

theorem openMaze_edge {n : Nat} {a b : Pos} (hadj : adjacent a b)
    (ha1 : a.1 < n) (ha2 : a.2 < n) (hb1 : b.1 < n) (hb2 : b.2 < n) :
    edgeStep (openMaze n) a b :=
  ⟨hadj, openMaze_passable ha1 ha2, openMaze_passable hb1 hb2⟩

theorem stairPath_length (n : Nat) (hn : 1 ≤ n) :
    (stairPath n).length = 2 * n - 1 := by
  unfold stairPath
  simp
  omega


theorem getLast?_map_range {f : Nat → Pos} (k : Nat) :
    ((List.range (k + 1)).map f).getLast? = some (f k) := by
  rw [List.range_succ, List.map_append]
  simp

theorem stairPath_valid (n : Nat) (hn : 1 ≤ n) :
    ValidPath (openMaze n) (0, 0) (n - 1, n - 1) (stairPath n) := by
  obtain ⟨k, rfl⟩ : ∃ k, n = k + 1 := ⟨n - 1, by omega⟩
  refine ⟨?_, ?_, ?_⟩
  · unfold stairPath
    rw [List.range_succ_eq_map]
    simp
  · unfold stairPath
    rcases k with _ | k2
    · decide
    · have h2 : (k2 + 1 + 1 - 1) = k2 + 1 := rfl
      rw [h2, List.getLast?_append, getLast?_map_range]
      simp
  · unfold stairPath
    rw [List.chain'_append]
    refine ⟨?_, ?_, ?_⟩
    · rw [List.chain'_map, List.chain'_range_succ]
      intro i hi
      exact openMaze_edge (Or.inl ⟨rfl, Or.inl rfl⟩)
        (by simp) (by simp; omega) (by simp) (by simp; omega)
    · rcases k with _ | k2
      · simp
      · have h1 : k2 + 1 + 1 - 1 = k2 + 1 := rfl
        rw [h1, List.chain'_map, List.chain'_range_succ]
        intro i hi
        exact openMaze_edge (Or.inr ⟨rfl, Or.inl rfl⟩)
          (by simp; omega) (by simp) (by simp; omega) (by simp)
    · intro x hx y hy
      rcases k with _ | k2
      · simp at hy
      · have h1 : k2 + 1 + 1 - 1 = k2 + 1 := rfl
        rw [h1, List.range_succ_eq_map] at hy
        simp only [List.map_cons, List.head?_cons, Option.mem_def,
          Option.some.injEq] at hy
        rw [List.range_succ, List.map_append] at hx
        simp only [List.map_singleton] at hx
        rw [List.getLast?_concat] at hx
        simp only [Option.mem_def, Option.some.injEq] at hx
        subst hx
        subst hy
        exact openMaze_edge (Or.inr ⟨rfl, Or.inl rfl⟩)
          (by simp) (by simp) (by simp) (by simp)

/-- C2: whenever a path from start to goal through passable cells exists,
the path returned by the BFS strategy has minimum cell count — hence
minimum edge count — among all such paths; in particular on a fully open
n×n grid the path returned from `(0,0)` to `(n-1,n-1)` has exactly
Manhattan distance + 1 = 2n-1 cells. -/
theorem claim_C2 :
    (∀ (m : VMaze) (s g : Pos), WF m → Reachable m s g →
      ∃ p m', BFS.find_path m s g = some (some p, m') ∧
        ∀ q, ValidPath m s g q → p.length ≤ q.length) ∧
    (∀ n : Nat, 1 ≤ n →
      ∃ p m', BFS.find_path (openMaze n) (0, 0) (n - 1, n - 1) =
          some (some p, m') ∧ p.length = 2 * n - 1) := by
  constructor
  · intro m s g hwf hr
    obtain ⟨p, m', h1, _, h3⟩ := BFS.find_path_optimal hwf hr
    exact ⟨p, m', h1, h3⟩
  · intro n hn
    have hwf := openMaze_wf n
    have hstair := stairPath_valid n hn
    have hreach : Reachable (openMaze n) (0, 0) (n - 1, n - 1) := ⟨_, hstair⟩
    obtain ⟨p, m', h1, h2, h3⟩ := BFS.find_path_optimal hwf hreach
    refine ⟨p, m', h1, ?_⟩
    have hub : p.length ≤ 2 * n - 1 := by
      have := h3 _ hstair
      rwa [stairPath_length n hn] at this
    have hlb : manhattanN (0, 0) (n - 1, n - 1) + 1 ≤ p.length :=
      manhattan_lb p _ _ h2
    have hman : manhattanN (0, 0) (n - 1, n - 1) = 2 * (n - 1) := by
      unfold manhattanN
      simp
      omega
    omega

theorem claim_C2_witness :
    (WF testMazeBfs ∧ Reachable testMazeBfs (0, 0) (3, 3) ∧
      ∃ p m', BFS.find_path testMazeBfs (0, 0) (3, 3) = some (some p, m') ∧
        ∀ q, ValidPath testMazeBfs (0, 0) (3, 3) q → p.length ≤ q.length) ∧
    (1 ≤ 4 ∧ ∃ p m', BFS.find_path (openMaze 4) (0, 0) (4 - 1, 4 - 1) =
        some (some p, m') ∧ p.length = 2 * 4 - 1) :=
  have hre : Reachable testMazeBfs (0, 0) (3, 3) :=
    ⟨[(0, 0), (0, 1), (0, 2), (1, 2), (2, 2), (3, 2), (3, 3)],
      rfl, rfl, chainOk_iff.mp (by decide)⟩
  ⟨⟨by decide, hre, claim_C2.1 testMazeBfs (0, 0) (3, 3) (by decide) hre⟩,
   ⟨by decide, claim_C2.2 4 (by decide)⟩⟩
